import Mathlib

/-!
Verification of the ParallelMarkov repository (`fine-grain/main.go`).

The Go program builds a Markov-chain table (a map from a space-joined
window of `prefixLen` words to the list of successor words) from a token
sequence, using several build strategies selected by a worker count and
an inserter count.  This file gives a shallow embedding of the relevant
Go functions and proves or refutes the frozen claims about them.

Modelling conventions:
* The Go type `Prefix` (a slice of strings) is modelled by `Pfx := List String`.
  Go's `Prefix.Shift` mutates in place via `copy(p, p[1:]); p[len(p)-1] = word`;
  for a nonempty slice this is exactly `p.drop 1 ++ [word]`.  On an empty
  slice Go panics (`p[-1]`), so theorems carry the hypothesis `0 < plen`
  (the source comment describes a prefix of "one or more words").
* The concurrent `sync.Map` of `Chain` is modelled by an association list
  `ChainMap`, with `Chain.Load`, `Chain.Delete` and `Chain.LoadOrStore`
  mirroring the corresponding `sync.Map` operations.  `Chain.Insert`
  models the Go retry loop; executed atomically, the loop runs exactly one
  iteration (after the `Delete` the key is absent, so `LoadOrStore` stores
  and returns `loaded = false`, ending the loop).
* Interleaving of goroutines is not modelled.  Each build strategy is
  modelled by the sequence of `(key, word)` pairs it inserts (directly or
  through a channel): this multiset of work items is deterministic and is
  exactly what the spec's observational-equality invariant constrains.
  A strategy that performs an out-of-range slice or index operation in Go
  panics; the model returns `none` in those cases.
-/

/-- The Go type `Prefix` (`fine-grain/main.go` line 45): a slice of words. -/
abbrev Pfx := List String

/-- `Prefix.String` (line 48): `strings.Join(p, " ")`, the map key. -/
def Pfx.toKey (p : Pfx) : String :=
  String.intercalate " " p

/-- `Prefix.Shift` (line 53): `copy(p, p[1:]); p[len(p)-1] = word`.
For a nonempty slice this drops the first word and appends `word`.
(Go panics on an empty slice; theorems assume `0 < plen`.) -/
def Pfx.shift (p : Pfx) (word : String) : Pfx :=
  p.drop 1 ++ [word]

/-- The insertion pairs produced by the sequential scan of `Chain.Build`
(lines 89-96), starting from an arbitrary rolling window `p`:
for each word in order, emit `(p.String(), word)` and then shift `p`. -/
def seqPairsAux (p : Pfx) : List String → List (String × String)
  | [] => []
  | word :: ws => (Pfx.toKey p, word) :: seqPairsAux (Pfx.shift p word) ws

/-- The insertion pairs of the sequential baseline (`Chain.Build` with
`workers = 1`, lines 89-96): rolling window starting as `prefixLen`
empty strings. -/
def seqPairs (plen : Nat) (ws : List String) : List (String × String) :=
  seqPairsAux (List.replicate plen "") ws

/-- The `sync.Map` field of `Chain` (line 63), modelled as an association
list from keys to successor lists. -/
abbrev ChainMap := List (String × List String)

/-- `sync.Map.Load`: the value stored at `key`, if present. -/
def Chain.Load (m : ChainMap) (key : String) : Option (List String) :=
  (m.find? (fun e => e.1 == key)).map (fun e => e.2)

/-- `sync.Map.Delete`: remove the entry for `key`. -/
def Chain.Delete (m : ChainMap) (key : String) : ChainMap :=
  m.filter (fun e => !(e.1 == key))

/-- `sync.Map.LoadOrStore`: returns the existing value and `loaded = true`
if `key` is present, otherwise stores `v` and returns it with
`loaded = false`. -/
def Chain.LoadOrStore (m : ChainMap) (key : String) (v : List String) :
    ChainMap × List String × Bool :=
  match Chain.Load m key with
  | some v0 => (m, v0, true)
  | none => (m ++ [(key, v)], v, false)

/-- `Chain.Insert` (lines 72-84).  The Go body loads the current list,
appends `word` (creating a one-element list if absent), deletes the key
and calls `LoadOrStore`.  Executed atomically the loop body runs exactly
once: after the `Delete` the key is absent, so `LoadOrStore` stores the
new list and returns `loaded = false`, ending the loop. -/
def Chain.Insert (m : ChainMap) (key word : String) : ChainMap :=
  let values :=
    match Chain.Load m key with
    | none => [word]
    | some vs => vs ++ [word]
  (Chain.LoadOrStore (Chain.Delete m key) key values).1

/-- The table obtained by performing a sequence of insertions on an empty
`Chain` (as every build strategy does). -/
def Chain.tableOf (ps : List (String × String)) : ChainMap :=
  ps.foldl (fun m kw => Chain.Insert m kw.1 kw.2) []

/-- `Chain.BuildGoLock` (lines 117-139).  Seeds the first `prefixLen`
positions with the rolling window (Go ranges over `words[:prefixLen]`,
which panics when the corpus is shorter than `prefixLen`: modelled by
`none`), then one goroutine per position `idx ∈ [prefixLen, len)` inserts
`(strings.Join(words[idx-prefixLen:idx], " "), words[idx])`. -/
def buildGoLockPairs (plen : Nat) (ws : List String) : Option (List (String × String)) :=
  if plen ≤ ws.length then
    some (seqPairsAux (List.replicate plen "") (ws.take plen)
      ++ (List.range' plen (ws.length - plen)).map (fun idx =>
            (Pfx.toKey ((ws.drop (idx - plen)).take plen), ws.getD idx "")))
  else none

/-- `Chain.BuildGoChannel` (lines 141-175): identical key/word pairs to
`BuildGoLock`, but routed through one channel to a single inserter
goroutine; the pairs published are the same. -/
def buildGoChannelPairs (plen : Nat) (ws : List String) : Option (List (String × String)) :=
  if plen ≤ ws.length then
    some (seqPairsAux (List.replicate plen "") (ws.take plen)
      ++ (List.range' plen (ws.length - plen)).map (fun idx =>
            (Pfx.toKey ((ws.drop (idx - plen)).take plen), ws.getD idx "")))
  else none

/-- `Chain.BuildGoChannels` (lines 177-213): identical key/word pairs to
`BuildGoLock`, routed through one channel drained by `inserters`
goroutines; the pairs published are the same. -/
def buildGoChannelsPairs (plen : Nat) (ws : List String) : Option (List (String × String)) :=
  if plen ≤ ws.length then
    some (seqPairsAux (List.replicate plen "") (ws.take plen)
      ++ (List.range' plen (ws.length - plen)).map (fun idx =>
            (Pfx.toKey ((ws.drop (idx - plen)).take plen), ws.getD idx "")))
  else none

/-- `Chain.BuildGo` (lines 106-115): dispatch on the inserter count. -/
def buildGoPairs (plen inserters : Nat) (ws : List String) : Option (List (String × String)) :=
  match inserters with
  | 0 => buildGoLockPairs plen ws
  | 1 => buildGoChannelPairs plen ws
  | _ => buildGoChannelsPairs plen ws

/-- The per-worker segment size of the partitioned strategies
(lines 232-235): `len(words)/workers`, rounded up when the division has
a remainder. -/
def perWorker (n workers : Nat) : Nat :=
  if n % workers = 0 then n / workers else n / workers + 1

/-- The segment `(start, end)` of each partitioned worker `i`
(lines 236-238): `start = perWorker*i`, `end = min(perWorker*(i+1), len(words))`. -/
def tpSegments (n workers : Nat) : List (Nat × Nat) :=
  (List.range workers).map (fun i =>
    (perWorker n workers * i, min (perWorker n workers * (i + 1)) n))

/-- The body of one partitioned worker (lines 239-256).  A worker with
`start ≠ 0` first rebuilds its window from `words[start-prefixLen .. start-1]`
(the Go loop `p[idx] = words[start+idx-prefixLen]`, which panics when
`start < prefixLen` — the "dumb case" noted in the source — or when
`start > len(words)`), then scans `words[start:end]` with the rolling
window, emitting `(p.String(), word)` pairs.  `none` models the panic. -/
def tpWorkerPairs (plen : Nat) (ws : List String) (start endI : Nat) :
    Option (List (String × String)) :=
  if start = 0 then
    some (seqPairsAux (List.replicate plen "") (ws.take endI))
  else if plen ≤ start ∧ start ≤ endI ∧ endI ≤ ws.length then
    some (seqPairsAux ((ws.drop (start - plen)).take plen)
      ((ws.drop start).take (endI - start)))
  else none

/-- The `for i := 0; i < workers; i++` spawn loop of the partitioned
strategies, collecting every worker's insertion pairs in worker order
(`cnt` workers remaining, the next being worker `k`); `none` if any
worker panics. -/
def tpJoin (plen : Nat) (ws : List String) (perW n : Nat) : Nat → Nat → Option (List (String × String))
  | _, 0 => some []
  | k, cnt + 1 =>
    match tpWorkerPairs plen ws (perW * k) (min (perW * (k + 1)) n),
        tpJoin plen ws perW n (k + 1) cnt with
    | some l, some rest => some (l ++ rest)
    | _, _ => none

/-- `Chain.BuildTPLock` (lines 228-260): `workers` partitioned workers
inserting directly. -/
def buildTPLockPairs (plen workers : Nat) (ws : List String) : Option (List (String × String)) :=
  tpJoin plen ws (perWorker ws.length workers) ws.length 0 workers

/-- `Chain.BuildTPChannel` (lines 262-306): the same partitioned workers,
publishing their pairs to one channel drained by a single inserter. -/
def buildTPChannelPairs (plen workers : Nat) (ws : List String) : Option (List (String × String)) :=
  tpJoin plen ws (perWorker ws.length workers) ws.length 0 workers

/-- `Chain.BuildTPChannels` (lines 308-354): the same partitioned workers,
publishing to one channel drained by `inserters` goroutines. -/
def buildTPChannelsPairs (plen workers : Nat) (ws : List String) : Option (List (String × String)) :=
  tpJoin plen ws (perWorker ws.length workers) ws.length 0 workers

/-- `Chain.BuildTP` (lines 217-226): dispatch on the inserter count. -/
def buildTPPairs (plen workers inserters : Nat) (ws : List String) :
    Option (List (String × String)) :=
  match inserters with
  | 0 => buildTPLockPairs plen workers ws
  | 1 => buildTPChannelPairs plen workers ws
  | _ => buildTPChannelsPairs plen workers ws

/-- `Chain.Build` (lines 87-102): `workers = 1` is the sequential scan
(which never panics), `workers = 0` dispatches to the goroutine
strategies, anything else to the partitioned strategies. -/
def Chain.BuildPairs (plen workers inserters : Nat) (ws : List String) :
    Option (List (String × String)) :=
  match workers with
  | 1 => some (seqPairs plen ws)
  | 0 => buildGoPairs plen inserters ws
  | _ => buildTPPairs plen workers inserters ws

/-- `Chain.Generate`'s loop body (lines 357-371), with the remaining word
budget as fuel and the random draws supplied by an oracle `rnd` (one
draw per remaining-budget value; `rand.Intn(len(choices))` is modelled
as `rnd k % choices.length`, an arbitrary in-range index).  If the
current key is absent (`Load` returns `nil`), the loop breaks. -/
def Chain.GenerateAux (m : ChainMap) (rnd : Nat → Nat) : Pfx → Nat → List String
  | _, 0 => []
  | p, k + 1 =>
    match Chain.Load m (Pfx.toKey p) with
    | none => []
    | some choices =>
      let next := choices.getD (rnd k % choices.length) ""
      next :: Chain.GenerateAux m rnd (Pfx.shift p next) k

/-- `Chain.Generate` (lines 357-371): at most `n` words starting from the
all-empty window. -/
def Chain.Generate (m : ChainMap) (plen : Nat) (rnd : Nat → Nat) (n : Nat) : List String :=
  Chain.GenerateAux m rnd (List.replicate plen "") n

/-- The rolling window of the sequential scan after consuming the first
`j` tokens: the last `plen` entries of `prefixLen` empty strings followed
by the consumed tokens. -/
def ctxAt (plen : Nat) (ws : List String) (j : Nat) : Pfx :=
  (List.replicate plen "" ++ ws.take j).drop j

/-- The insertion pair the sequential scan emits at global position `idx`. -/
def seqPairAt (plen : Nat) (ws : List String) (idx : Nat) : String × String :=
  (Pfx.toKey (ctxAt plen ws idx), ws.getD idx "")

theorem ctxAt_zero (plen : Nat) (ws : List String) :
    ctxAt plen ws 0 = List.replicate plen "" := by
  simp [ctxAt]

theorem ctxAt_shift {plen j : Nat} {ws : List String} (hp : 0 < plen) (hj : j < ws.length) :
    Pfx.shift (ctxAt plen ws j) (ws.getD j "") = ctxAt plen ws (j + 1) := by
  have hlen : (List.replicate plen "" ++ ws.take j).length = plen + j := by
    simp [Nat.min_eq_left (Nat.le_of_lt hj)]
  have hget : ws[j]? = some (ws.getD j "") := by
    rw [List.getElem?_eq_getElem hj]
    simp [List.getD_eq_getElem?_getD, List.getElem?_eq_getElem hj]
  have hR : List.replicate plen "" ++ ws.take (j + 1)
      = (List.replicate plen "" ++ ws.take j) ++ [ws.getD j ""] := by
    rw [List.take_succ, hget]
    simp
  unfold ctxAt Pfx.shift
  rw [List.drop_drop, hR, List.drop_append_of_le_length
    (by omega : j + 1 ≤ (List.replicate plen "" ++ ws.take j).length)]

theorem ctxAt_of_le {plen j : Nat} {ws : List String} (hpj : plen ≤ j) :
    ctxAt plen ws j = (ws.drop (j - plen)).take plen := by
  have h0 : List.drop j (List.replicate plen "" ++ ws.take j)
      = List.drop (j - plen) (List.take j ws) := by
    have hd := List.drop_drop (j - plen) plen (List.replicate plen "" ++ ws.take j)
    rw [show plen + (j - plen) = j from by omega] at hd
    rw [← hd]
    congr 1
    have hl := List.drop_left (List.replicate plen "") (ws.take j)
    simp only [List.length_replicate] at hl
    exact hl
  unfold ctxAt
  rw [h0, List.drop_take]
  congr 1
  omega

theorem seqPairsAux_ctxAt {plen : Nat} {ws : List String} (hp : 0 < plen) :
    ∀ (cnt j : Nat), j + cnt ≤ ws.length →
      seqPairsAux (ctxAt plen ws j) ((ws.drop j).take cnt)
        = (List.range' j cnt).map (seqPairAt plen ws) := by
  intro cnt
  induction cnt with
  | zero => intro j _; simp [seqPairsAux]
  | succ cnt ih =>
    intro j h
    have hj : j < ws.length := by omega
    have hdrop : ws.drop j = ws.getD j "" :: ws.drop (j + 1) := by
      rw [List.drop_eq_getElem_cons hj]
      congr 1
      simp [List.getD_eq_getElem?_getD, List.getElem?_eq_getElem hj]
    rw [hdrop, List.take_succ_cons, List.range'_succ]
    simp only [seqPairsAux, List.map_cons]
    rw [ctxAt_shift hp hj, ih (j + 1) (by omega)]
    rfl

theorem seqPairs_eq_map {plen : Nat} (hp : 0 < plen) (ws : List String) :
    seqPairs plen ws = (List.range' 0 ws.length).map (seqPairAt plen ws) := by
  have h := @seqPairsAux_ctxAt plen ws hp ws.length 0 (by omega)
  rw [ctxAt_zero, List.drop_zero, List.take_length] at h
  exact h

theorem buildGoLockPairs_eq_seq {plen : Nat} {ws : List String} {ps : List (String × String)}
    (hp : 0 < plen) (h : buildGoLockPairs plen ws = some ps) :
    ps = seqPairs plen ws := by
  unfold buildGoLockPairs at h
  split at h
  case isFalse => exact absurd h (by simp)
  case isTrue hple =>
    injection h with h'
    subst h'
    have hseed : seqPairsAux (List.replicate plen "") (ws.take plen)
        = (List.range' 0 plen).map (seqPairAt plen ws) := by
      have hs := @seqPairsAux_ctxAt plen ws hp plen 0 (by omega)
      rw [ctxAt_zero, List.drop_zero] at hs
      exact hs
    have htasks : (List.range' plen (ws.length - plen)).map (fun idx =>
          (Pfx.toKey ((ws.drop (idx - plen)).take plen), ws.getD idx ""))
        = (List.range' plen (ws.length - plen)).map (seqPairAt plen ws) := by
      apply List.map_congr_left
      intro idx hidx
      have hmem := List.mem_range'_1.mp hidx
      unfold seqPairAt
      rw [ctxAt_of_le hmem.1]
    rw [hseed, htasks, seqPairs_eq_map hp]
    have happ := List.range'_append 0 plen (ws.length - plen) 1
    rw [Nat.zero_add, Nat.one_mul] at happ
    rw [← List.map_append, happ,
      show ws.length - plen + plen = ws.length from by omega]

theorem perWorker_mul_ge {n workers : Nat} (hw : 0 < workers) :
    n ≤ perWorker n workers * workers := by
  have hdm : workers * (n / workers) + n % workers = n := Nat.div_add_mod n workers
  have hlt : n % workers < workers := Nat.mod_lt _ hw
  unfold perWorker
  split
  case isTrue h0 =>
    rw [Nat.mul_comm]
    omega
  case isFalse h0 =>
    rw [Nat.add_mul, Nat.one_mul, Nat.mul_comm]
    omega

theorem tpWorker_eq_map {plen perW i : Nat} {ws : List String} {l : List (String × String)}
    (hp : 0 < plen)
    (h : tpWorkerPairs plen ws (perW * i) (min (perW * (i + 1)) ws.length) = some l) :
    perW * i ≤ ws.length ∧
      l = (List.range' (perW * i) (min (perW * (i + 1)) ws.length - perW * i)).map
        (seqPairAt plen ws) := by
  unfold tpWorkerPairs at h
  split at h
  case isTrue h0 =>
    injection h with h'
    subst h'
    refine ⟨by omega, ?_⟩
    have hs := @seqPairsAux_ctxAt plen ws hp (min (perW * (i + 1)) ws.length) 0 (by omega)
    rw [ctxAt_zero, List.drop_zero] at hs
    rw [h0, hs]
    simp
  case isFalse h0 =>
    split at h
    case isFalse => exact absurd h (by simp)
    case isTrue hg =>
      obtain ⟨hps, hse, hen⟩ := hg
      injection h with h'
      subst h'
      refine ⟨by omega, ?_⟩
      rw [← ctxAt_of_le hps]
      exact seqPairsAux_ctxAt hp (min (perW * (i + 1)) ws.length - perW * i) (perW * i)
        (by omega)

theorem tpJoin_eq_map {plen perW : Nat} {ws : List String} (hp : 0 < plen) :
    ∀ (cnt k : Nat) (ps : List (String × String)),
      tpJoin plen ws perW ws.length k cnt = some ps →
      ps = (List.range' (min (perW * k) ws.length)
             (min (perW * (k + cnt)) ws.length - min (perW * k) ws.length)).map
           (seqPairAt plen ws) := by
  intro cnt
  induction cnt with
  | zero =>
    intro k ps h
    simp only [tpJoin] at h
    injection h with h'
    subst h'
    simp
  | succ cnt ih =>
    intro k ps h
    rw [tpJoin] at h
    cases hA : tpWorkerPairs plen ws (perW * k) (min (perW * (k + 1)) ws.length) with
    | none => rw [hA] at h; exact absurd h (by simp)
    | some l =>
      cases hB : tpJoin plen ws perW ws.length (k + 1) cnt with
      | none => rw [hA, hB] at h; exact absurd h (by simp)
      | some rest =>
        rw [hA, hB] at h
        injection h with h'
        subst h'
        obtain ⟨hkle, hl⟩ := tpWorker_eq_map hp hA
        have hrest := ih (k + 1) rest hB
        have hmin : min (perW * k) ws.length = perW * k := Nat.min_eq_left hkle
        have h1 : perW * k ≤ min (perW * (k + 1)) ws.length :=
          le_min (Nat.mul_le_mul_left perW (by omega : k ≤ k + 1)) hkle
        have h2 : min (perW * (k + 1)) ws.length ≤ min (perW * (k + 1 + cnt)) ws.length :=
          min_le_min (Nat.mul_le_mul_left perW (by omega : k + 1 ≤ k + 1 + cnt))
            (Nat.le_refl ws.length)
        rw [hl, hrest, ← List.map_append]
        have happ := List.range'_append (perW * k)
          (min (perW * (k + 1)) ws.length - perW * k)
          (min (perW * (k + 1 + cnt)) ws.length - min (perW * (k + 1)) ws.length) 1
        rw [Nat.one_mul,
          show perW * k + (min (perW * (k + 1)) ws.length - perW * k)
            = min (perW * (k + 1)) ws.length from by omega] at happ
        rw [happ, hmin]
        rw [show k + (cnt + 1) = k + 1 + cnt from by omega]
        generalize hC : perW * k = C at h1 ⊢
        generalize hX : min (perW * (k + 1)) ws.length = X at h1 h2 ⊢
        generalize hY : min (perW * (k + 1 + cnt)) ws.length = Y at h2 ⊢
        rw [show Y - X + (X - C) = Y - C from by omega]

theorem buildTPLockPairs_eq_seq {plen workers : Nat} {ws : List String}
    {ps : List (String × String)} (hp : 0 < plen) (hw : 0 < workers)
    (h : buildTPLockPairs plen workers ws = some ps) :
    ps = seqPairs plen ws := by
  have hj := tpJoin_eq_map hp workers 0 ps h
  have hfull : min (perWorker ws.length workers * workers) ws.length = ws.length :=
    Nat.min_eq_right (perWorker_mul_ge hw)
  rw [Nat.mul_zero, Nat.zero_add, Nat.min_eq_left (Nat.zero_le _), hfull] at hj
  rw [hj, seqPairs_eq_map hp]
  simp

/-- All `BuildStrategy` variants produce the sequential scan's insertion
pairs whenever they complete without panicking. -/
theorem buildPairs_eq_seq {plen workers inserters : Nat} {ws : List String}
    {ps : List (String × String)} (hp : 0 < plen)
    (h : Chain.BuildPairs plen workers inserters ws = some ps) :
    ps = seqPairs plen ws := by
  unfold Chain.BuildPairs at h
  match hwk : workers, h with
  | 1, h => injection h with h'; exact h'.symm
  | 0, h =>
    unfold buildGoPairs at h
    match hins : inserters, h with
    | 0, h => exact buildGoLockPairs_eq_seq hp h
    | 1, h => exact buildGoLockPairs_eq_seq hp h
    | n + 2, h => exact buildGoLockPairs_eq_seq hp h
  | w + 2, h =>
    unfold buildTPPairs at h
    match hins : inserters, h with
    | 0, h => exact buildTPLockPairs_eq_seq hp (by omega) h
    | 1, h => exact buildTPLockPairs_eq_seq hp (by omega) h
    | n + 2, h => exact buildTPLockPairs_eq_seq hp (by omega) h

theorem load_delete_self (m : ChainMap) (key : String) :
    Chain.Load (Chain.Delete m key) key = none := by
  unfold Chain.Load Chain.Delete
  have hfind : List.find? (fun e => e.1 == key)
      (List.filter (fun e => !(e.1 == key)) m) = none := by
    rw [List.find?_eq_none]
    intro x hx
    have hmem := (List.mem_filter.mp hx).2
    simp only [Bool.not_eq_eq_eq_not, Bool.not_true] at hmem
    simp [hmem]
  rw [hfind]
  rfl

theorem load_append (m₁ m₂ : ChainMap) (key : String) :
    Chain.Load (m₁ ++ m₂) key
      = match Chain.Load m₁ key with
        | some v => some v
        | none => Chain.Load m₂ key := by
  unfold Chain.Load
  rw [List.find?_append]
  cases h : List.find? (fun e => e.1 == key) m₁ with
  | none => simp [Option.or]
  | some e => simp [Option.or]

theorem find?_filter_of_imp {α : Type} (p q : α → Bool) (l : List α)
    (himp : ∀ x, q x = true → p x = true) :
    List.find? q (List.filter p l) = List.find? q l := by
  induction l with
  | nil => rfl
  | cons e t ih =>
    cases hqe : q e with
    | true =>
      have hpe := himp e hqe
      rw [List.filter_cons_of_pos hpe, List.find?_cons_of_pos _ hqe,
        List.find?_cons_of_pos _ hqe]
    | false =>
      cases hpe : p e with
      | true =>
        rw [List.filter_cons_of_pos hpe, List.find?_cons_of_neg _ (by simp [hqe]),
          List.find?_cons_of_neg _ (by simp [hqe])]
        exact ih
      | false =>
        rw [List.filter_cons_of_neg (by simp [hpe]), List.find?_cons_of_neg _ (by simp [hqe])]
        exact ih

theorem load_delete_ne (m : ChainMap) {key k2 : String} (hne : k2 ≠ key) :
    Chain.Load (Chain.Delete m key) k2 = Chain.Load m k2 := by
  unfold Chain.Load Chain.Delete
  rw [find?_filter_of_imp]
  intro x hx
  rw [beq_iff_eq] at hx
  simp [hx, hne]

theorem insert_eq (m : ChainMap) (key word : String) :
    Chain.Insert m key word
      = Chain.Delete m key ++ [(key, (Chain.Load m key).getD [] ++ [word])] := by
  unfold Chain.Insert Chain.LoadOrStore
  rw [load_delete_self]
  cases h : Chain.Load m key <;> simp

/-- Chaining of monotone steps for the telescoping partition lemma. -/
theorem mono_chain {g : Nat → Nat} (hmono : ∀ i, g i ≤ g (i + 1)) :
    ∀ (a d : Nat), g a ≤ g (a + d) := by
  intro a d
  induction d with
  | zero => exact Nat.le_refl _
  | succ d ih =>
    calc g a ≤ g (a + d) := ih
      _ ≤ g (a + d + 1) := hmono _

/-- Telescoping: consecutive half-open ranges `[g i, g (i+1))` concatenate
to `[g k, g (k+cnt))`. -/
theorem range'_join_telescope (g : Nat → Nat) (hmono : ∀ i, g i ≤ g (i + 1)) :
    ∀ (cnt k : Nat),
      (((List.range' k cnt).map (fun i => List.range' (g i) (g (i + 1) - g i))).flatten)
        = List.range' (g k) (g (k + cnt) - g k) := by
  intro cnt
  induction cnt with
  | zero => intro k; simp
  | succ cnt ih =>
    intro k
    rw [List.range'_succ]
    simp only [List.map_cons, List.flatten_cons]
    rw [ih (k + 1)]
    have h1 : g k ≤ g (k + 1) := hmono k
    have h2 : g (k + 1) ≤ g (k + 1 + cnt) := mono_chain hmono (k + 1) cnt
    have happ := List.range'_append (g k) (g (k + 1) - g k) (g (k + 1 + cnt) - g (k + 1)) 1
    rw [Nat.one_mul, show g k + (g (k + 1) - g k) = g (k + 1) from by omega] at happ
    rw [happ, show k + (cnt + 1) = k + 1 + cnt from by omega,
      show g (k + 1 + cnt) - g (k + 1) + (g (k + 1) - g k) = g (k + 1 + cnt) - g k
        from by omega]

/-- `Modelled from the spec:` the serialization "tokens joined by a single
space", written as a plain structural fold, to compare with the code's
`strings.Join(p, " ")`. -/
def specJoin : List String → String
  | [] => ""
  | [a] => a
  | a :: b :: t => a ++ " " ++ specJoin (b :: t)

theorem intercalateGo_append (s : String) :
    ∀ (l : List String) (x y : String),
      String.intercalate.go (x ++ y) s l = x ++ String.intercalate.go y s l := by
  intro l
  induction l with
  | nil => intro x y; rfl
  | cons b t ih =>
    intro x y
    show String.intercalate.go (x ++ y ++ s ++ b) s t
      = x ++ String.intercalate.go (y ++ s ++ b) s t
    rw [show x ++ y ++ s ++ b = x ++ (y ++ s ++ b) from by
      rw [String.append_assoc x y s, String.append_assoc x (y ++ s) b]]
    exact ih x (y ++ s ++ b)

/-- The code's key serialization agrees with the spec's "joined by a
single space". -/
theorem toKey_eq_specJoin : ∀ p : Pfx, Pfx.toKey p = specJoin p
  | [] => rfl
  | [_] => rfl
  | a :: b :: t => by
    have ih := toKey_eq_specJoin (b :: t)
    show String.intercalate.go a " " (b :: t) = a ++ " " ++ specJoin (b :: t)
    rw [← ih]
    show String.intercalate.go (a ++ " " ++ b) " " t
      = a ++ " " ++ String.intercalate.go b " " t
    exact intercalateGo_append " " t (a ++ " ") b

-- sanity checks (concrete evaluation of the embedded definitions)
example : seqPairs 2 ["I", "am", "a"] =
    [(" ", "I"), (" I", "am"), ("I am", "a")] := by decide

example : Chain.Load (Chain.tableOf (seqPairs 2 ["I", "am", "a"])) " " = some ["I"] := by
  decide

example : Chain.BuildPairs 2 0 0 ["I", "am", "a"] = some (seqPairs 2 ["I", "am", "a"]) := by
  decide

example : Chain.BuildPairs 2 3 0 ["a", "b", "c", "d", "e", "f"] =
    some (seqPairs 2 ["a", "b", "c", "d", "e", "f"]) := by decide

example : Chain.BuildPairs 2 0 0 ["a"] = none := by decide

example : Chain.BuildPairs 2 3 0 ["a", "b", "c"] = none := by decide

example : Chain.BuildPairs 2 4 0 ["a", "b", "c", "d", "e"] = none := by decide

theorem seqPairsAux_length (p : Pfx) (ws : List String) :
    (seqPairsAux p ws).length = ws.length := by
  induction ws generalizing p with
  | nil => rfl
  | cons w t ih => simp [seqPairsAux, ih]

theorem seqPairs_getElem {plen j : Nat} {ws : List String} (hp : 0 < plen)
    (hj : j < ws.length) :
    (seqPairs plen ws)[j]? = some (seqPairAt plen ws j) := by
  rw [seqPairs_eq_map hp, List.getElem?_map, List.getElem?_range' 0 1 hj]
  simp

-- sanity checks (concrete evaluation of the embedded definitions)
example : seqPairs 2 ["I", "am", "a"] =
    [(" ", "I"), (" I", "am"), ("I am", "a")] := by decide

/-- C1: every `BuildStrategy` variant (`Build` with workers = 1, `BuildGo`
with inserters 0, 1 or many, `BuildTP` with any worker count and
inserters 0, 1 or many) that completes produces a `ChainTable` whose
per-key successor multisets are identical to those of the strict
sequential scan (rolling window of `prefixLen` empty strings; for each
token in order, insert then shift). -/
theorem C1_strategy_equivalence (plen workers inserters : Nat) (ws : List String)
    (hp : 0 < plen) (ps : List (String × String))
    (h : Chain.BuildPairs plen workers inserters ws = some ps) (key : String) :
    (((Chain.Load (Chain.tableOf ps) key).getD []) : Multiset String)
      = (((Chain.Load (Chain.tableOf (seqPairs plen ws)) key).getD []) : Multiset String) := by
  rw [buildPairs_eq_seq hp h]

theorem C1_witness :
    (((Chain.Load (Chain.tableOf (seqPairs 2 ["a", "b", "c", "d", "e", "f"])) " ").getD [])
        : Multiset String)
      = (((Chain.Load (Chain.tableOf (seqPairs 2 ["a", "b", "c", "d", "e", "f"])) " ").getD [])
        : Multiset String) :=
  C1_strategy_equivalence 2 3 0 ["a", "b", "c", "d", "e", "f"] (by decide)
    (seqPairs 2 ["a", "b", "c", "d", "e", "f"]) (by decide) " "

/-- C2 (counterexample): the sequential build over a 3-token corpus with
`prefixLen = 2` performs 3 insertions, not `len(tokens) - prefixLen = 1`:
every token, including the first `prefixLen`, is inserted under a
partially-empty window key. -/
theorem C2_counterexample :
    Chain.BuildPairs 2 1 0 ["a", "b", "c"] = some (seqPairs 2 ["a", "b", "c"])
      ∧ (seqPairs 2 ["a", "b", "c"]).length = 3
      ∧ ¬ (seqPairs 2 ["a", "b", "c"]).length
          = (["a", "b", "c"] : List String).length - 2 := by
  decide

/-- C2 (amended): after any build strategy that completes, the total
number of insertions summed across all keys equals `len(tokens)`. -/
theorem C2_total_insertions (plen workers inserters : Nat) (ws : List String)
    (hp : 0 < plen) (ps : List (String × String))
    (h : Chain.BuildPairs plen workers inserters ws = some ps) :
    ps.length = ws.length := by
  rw [buildPairs_eq_seq hp h]
  exact seqPairsAux_length _ _

theorem C2_witness :
    (seqPairs 2 ["a", "b", "c"]).length = (["a", "b", "c"] : List String).length :=
  C2_total_insertions 2 1 0 ["a", "b", "c"] (by decide) (seqPairs 2 ["a", "b", "c"]) rfl

/-- C3: on a corpus shorter than `prefixLen` the goroutine strategies
(W = 0, any inserter count) panic in Go on the slice `words[:prefixLen]`
(modelled by `none`), while the sequential strategy completes with a
partially-seeded table. -/
theorem C3_short_corpus_crash :
    Chain.BuildPairs 2 0 0 ["a"] = none
      ∧ Chain.BuildPairs 2 0 1 ["a"] = none
      ∧ Chain.BuildPairs 2 0 2 ["a"] = none
      ∧ Chain.BuildPairs 2 1 0 ["a"] = some [(" ", "a")] := by
  decide

/-- C4: with 3 tokens, `prefixLen = 2` and 3 workers, worker 1 starts at
index 1, so `0 < start < prefixLen` and its context loop reads
`words[-1]`: an out-of-range read (the "dumb case" admitted in the
source comment), modelled by `none`. -/
theorem C4_out_of_range_read :
    Chain.BuildPairs 2 3 0 ["a", "b", "c"] = none
      ∧ perWorker 3 3 * 1 = 1
      ∧ ¬ (2 ≤ perWorker 3 3 * 1)
      ∧ perWorker 3 3 * 1 ≠ 0 := by
  decide

/-- C5: for every partitioned build with more than one worker, each
worker `k > 0` whose segment start lies inside the token sequence emits,
as its first insertion, exactly the key the strict sequential scan
computes at that same global token offset. -/
theorem C5_worker_first_key (plen W k : Nat) (ws : List String)
    (hp : 0 < plen) (_hW : 1 < W) (_hk : 0 < k)
    (hstart : plen ≤ perWorker ws.length W * k)
    (hlt : perWorker ws.length W * k < ws.length)
    (l : List (String × String))
    (h : tpWorkerPairs plen ws (perWorker ws.length W * k)
          (min (perWorker ws.length W * (k + 1)) ws.length) = some l) :
    l.head?.map Prod.fst
      = ((seqPairs plen ws)[perWorker ws.length W * k]?).map Prod.fst := by
  obtain ⟨hle, hl⟩ := tpWorker_eq_map hp h
  have hpw : 0 < perWorker ws.length W := by
    rcases Nat.eq_zero_or_pos (perWorker ws.length W) with h0 | h0
    · rw [h0, Nat.zero_mul] at hstart; omega
    · exact h0
  have hmul : perWorker ws.length W * (k + 1)
      = perWorker ws.length W * k + perWorker ws.length W := by ring
  have hcnt : min (perWorker ws.length W * (k + 1)) ws.length
      - perWorker ws.length W * k ≠ 0 := by
    rw [hmul]
    omega
  obtain ⟨c, hc⟩ := Nat.exists_eq_succ_of_ne_zero hcnt
  rw [hl, seqPairs_getElem hp hlt, hc, List.range'_succ]
  rfl

theorem C5_witness :
    (([("a b", "c"), ("b c", "d")] : List (String × String)).head?).map Prod.fst
      = ((seqPairs 2 ["a", "b", "c", "d"])[perWorker
          (["a", "b", "c", "d"] : List String).length 2 * 1]?).map Prod.fst :=
  C5_worker_first_key 2 2 1 ["a", "b", "c", "d"] (by decide) (by decide) (by decide)
    (by decide) (by decide) [("a b", "c"), ("b c", "d")] (by decide)

/-- C6 (counterexample): with 5 tokens and 4 workers, `perWorker = 2` but
segment 2 (which is not the last, `2 ≠ 4 - 1`) has length `5 - 4 = 1`,
and worker 3's start index 6 exceeds the corpus length (its Go slice
`words[6:5]` panics, modelled by `none`): the claimed shape fails. -/
theorem C6_counterexample :
    tpSegments 5 4 = [(0, 2), (2, 4), (4, 5), (6, 5)]
      ∧ (2 : Nat) ≠ 4 - 1
      ∧ (5 : Nat) - 4 ≠ perWorker 5 4
      ∧ Chain.BuildPairs 2 4 0 ["a", "b", "c", "d", "e"] = none := by
  decide

/-- C6 (amended): provided every non-last segment fits inside the corpus
(`perWorker n W * (W - 1) ≤ n`), the partition is W contiguous
non-overlapping segments: each non-last segment spans exactly
`perWorker n W = ceil(n/W)` indices, the last is truncated at `n`, and
together the segments cover exactly the indices `0 .. n-1`. -/
theorem C6_partition_shape (n W : Nat) (hW : 0 < W)
    (hfit : perWorker n W * (W - 1) ≤ n) :
    (∀ i, i + 1 < W → (tpSegments n W)[i]?
        = some (perWorker n W * i, perWorker n W * (i + 1)))
      ∧ (tpSegments n W)[W - 1]? = some (perWorker n W * (W - 1), n)
      ∧ ((tpSegments n W).map (fun se => List.range' se.1 (se.2 - se.1))).flatten
          = List.range n := by
  have hmul : ∀ i j : Nat, i ≤ j → perWorker n W * i ≤ perWorker n W * j :=
    fun i j hij => Nat.mul_le_mul_left _ hij
  have hstart : ∀ i, i < W → perWorker n W * i ≤ n := by
    intro i hi
    calc perWorker n W * i ≤ perWorker n W * (W - 1) := hmul _ _ (by omega)
      _ ≤ n := hfit
  refine ⟨?_, ?_, ?_⟩
  · intro i hi
    unfold tpSegments
    rw [List.getElem?_map, List.getElem?_range (by omega : i < W)]
    simp only [Option.map_some']
    rw [Nat.min_eq_left (hstart (i + 1) (by omega))]
  · unfold tpSegments
    rw [List.getElem?_map, List.getElem?_range (by omega : W - 1 < W)]
    simp only [Option.map_some']
    rw [show W - 1 + 1 = W from by omega, Nat.min_eq_right (perWorker_mul_ge hW)]
  · unfold tpSegments
    rw [List.map_map]
    have hcg : (List.range W).map ((fun se => List.range' se.1 (se.2 - se.1)) ∘ (fun i =>
          (perWorker n W * i, min (perWorker n W * (i + 1)) n)))
        = (List.range W).map (fun i => List.range' (min (perWorker n W * i) n)
          (min (perWorker n W * (i + 1)) n - min (perWorker n W * i) n)) := by
      apply List.map_congr_left
      intro i hi
      have hmin := Nat.min_eq_left (hstart i (List.mem_range.mp hi))
      simp only [Function.comp]
      rw [hmin]
    rw [hcg]
    rw [List.range_eq_range' W,
      range'_join_telescope (fun i => min (perWorker n W * i) n)
        (fun i => min_le_min (hmul i (i + 1) (by omega)) (Nat.le_refl n)) W 0]
    rw [show (0 : Nat) + W = W from by omega]
    rw [show min (perWorker n W * 0) n = 0 from by
      rw [Nat.mul_zero]; exact Nat.min_eq_left (Nat.zero_le n)]
    rw [Nat.min_eq_right (perWorker_mul_ge hW), Nat.sub_zero, List.range_eq_range']

theorem C6_witness :
    (tpSegments 5 3)[0]? = some (perWorker 5 3 * 0, perWorker 5 3 * (0 + 1))
      ∧ (tpSegments 5 3)[3 - 1]? = some (perWorker 5 3 * (3 - 1), 5)
      ∧ ((tpSegments 5 3).map (fun se => List.range' se.1 (se.2 - se.1))).flatten
          = List.range 5 := by
  obtain ⟨h1, h2, h3⟩ := C6_partition_shape 5 3 (by decide) (by decide)
  exact ⟨h1 0 (by decide), h2, h3⟩

/-- C7: `Insert(key, word)` appends `word` to the collection stored at
`key`, creating a one-element collection if the key was absent:
afterwards `Load(key)` returns the prior collection (or empty) extended
by exactly that one word. -/
theorem C7_insert_appends (m : ChainMap) (key word : String) :
    Chain.Load (Chain.Insert m key word) key
      = some ((Chain.Load m key).getD [] ++ [word]) := by
  rw [insert_eq, load_append, load_delete_self]
  unfold Chain.Load
  rw [List.find?_cons_of_pos _ (by simp)]
  rfl

/-- C8: `Generate` on an empty table returns the empty sequence;
`Generate` with a zero word budget returns the empty sequence;
`Generate` never emits more than `n` words; and the loop halts as soon
as the current window's key is absent from the table. -/
theorem C8_generate_bounds (m : ChainMap) (plen : Nat) (rnd : Nat → Nat) :
    (∀ n : Nat, Chain.Generate [] plen rnd n = [])
      ∧ Chain.Generate m plen rnd 0 = []
      ∧ (∀ n : Nat, (Chain.Generate m plen rnd n).length ≤ n)
      ∧ (∀ (p : Pfx) (k : Nat), Chain.Load m (Pfx.toKey p) = none →
          Chain.GenerateAux m rnd p k = []) := by
  have haux : ∀ (k : Nat) (p : Pfx), (Chain.GenerateAux m rnd p k).length ≤ k := by
    intro k
    induction k with
    | zero => intro p; exact Nat.le_refl 0
    | succ k ih =>
      intro p
      unfold Chain.GenerateAux
      cases h : Chain.Load m (Pfx.toKey p) with
      | none => simp
      | some choices =>
        simp only [List.length_cons]
        exact Nat.succ_le_succ (ih _)
  refine ⟨?_, rfl, fun n => haux n _, ?_⟩
  · intro n
    cases n with
    | zero => rfl
    | succ k => rfl
  · intro p k h
    cases k with
    | zero => rfl
    | succ k =>
      unfold Chain.GenerateAux
      rw [h]

theorem C8_witness :
    Chain.Generate [] 2 (fun _ => 0) 5 = []
      ∧ Chain.Generate [(" ", ["I"])] 2 (fun _ => 0) 0 = []
      ∧ (Chain.Generate [(" ", ["I"])] 2 (fun _ => 0) 3).length ≤ 3
      ∧ Chain.GenerateAux [(" ", ["I"])] (fun _ => 0) ["x", "y"] 4 = [] := by
  obtain ⟨h1, h2, h3, h4⟩ := C8_generate_bounds [(" ", ["I"])] 2 (fun _ => 0)
  exact ⟨h1 5, h2, h3 3, h4 ["x", "y"] 4 (by decide)⟩

/-- C9: the key serialization is the tokens joined by a single space;
`Shift` drops the token at index 0 and appends the new word at the end;
and the window length is exactly `prefixLen` before and after every
shift. -/
theorem C9_shift_invariants (plen : Nat) (p : Pfx) (word : String)
    (hp : 0 < plen) (hlen : p.length = plen) :
    Pfx.toKey p = specJoin p
      ∧ (Pfx.shift p word).length = plen
      ∧ (∀ i, i + 1 < plen → (Pfx.shift p word)[i]? = p[i + 1]?)
      ∧ (Pfx.shift p word)[plen - 1]? = some word := by
  have hdl : (p.drop 1).length = plen - 1 := by simp [hlen]
  refine ⟨toKey_eq_specJoin p, ?_, ?_, ?_⟩
  · simp only [Pfx.shift, List.length_append, List.length_drop, List.length_cons,
      List.length_nil, hlen]
    omega
  · intro i hi
    unfold Pfx.shift
    rw [List.getElem?_append, hdl, if_pos (by omega), List.getElem?_drop,
      Nat.add_comm 1 i]
  · unfold Pfx.shift
    rw [List.getElem?_append, hdl, if_neg (by omega), Nat.sub_self]
    rfl

theorem C9_witness :
    Pfx.toKey ["x", "y"] = specJoin ["x", "y"]
      ∧ (Pfx.shift ["x", "y"] "z").length = 2
      ∧ (Pfx.shift ["x", "y"] "z")[0]? = (["x", "y"] : Pfx)[0 + 1]?
      ∧ (Pfx.shift ["x", "y"] "z")[2 - 1]? = some "z" := by
  obtain ⟨h1, h2, h3, h4⟩ := C9_shift_invariants 2 ["x", "y"] "z" (by decide) (by decide)
  exact ⟨h1, h2, h3 0 (by decide), h4⟩

/-- C10: an insert mutates only the entry for its own key: for any other
key, `Load` returns the same collection before and after the insert. -/
theorem C10_insert_frame (m : ChainMap) (key k2 word : String) (hne : k2 ≠ key) :
    Chain.Load (Chain.Insert m key word) k2 = Chain.Load m k2 := by
  rw [insert_eq, load_append, load_delete_ne m hne]
  cases h : Chain.Load m k2 with
  | some v => rfl
  | none =>
    unfold Chain.Load
    rw [List.find?_cons_of_neg _ (by simp [Ne.symm hne])]
    rfl

theorem C10_witness :
    Chain.Load (Chain.Insert [("a", ["x"])] "a" "y") "b" = Chain.Load [("a", ["x"])] "b" :=
  C10_insert_frame [("a", ["x"])] "a" "b" "y" (by decide)
